import Mathlib

/-!
Verification of the `reg` regular-expression engine against its specification.

The development shallowly embeds the Python sources:
* `src/src/matching.py` — `RegexMatch` (`group_to_string`, `group`),
  `RegexPattern.finditer`, `RegexPattern._sub` / `subn`;
* `src/nfa.py` — the legacy `NFA` (`filter`, `epsilon_closure`, `move`,
  `gen_dfa_state_set_flags`, `compute_transitions_for_dfa_state`);
* `src/src/nfa_matcher.py` — `RegexNFA._match_suffix_dfa`, `RegexNFA.step`,
  `RegexNFA._match_suffix_no_groups`;
* `src/match.py` — the legacy `Matcher.search_from`.

Python strings are `List Char`, machine integers are `Nat` / `Int`
(`sys.maxsize` is the explicit constant `2 ^ 63 - 1`), raising an exception is
returning `none`, and unbounded `while` loops take an explicit fuel argument;
a theorem states the fuel bound under which the fueled function agrees with
the source loop whenever that matters.  Modules of the repository that the
sources import but that are not present under `src/` (`src/parser.py`,
`src/core.py`, `src/fsm.py`, `src/matcher.py`) are modelled from the spec
where needed; each such definition carries a doc comment saying so.
-/

/-- Python `sys.maxsize`, the sentinel stored in unset capture-group slots. -/
def pyMaxsize : Nat := 2 ^ 63 - 1

/-- Python slice `t[a:b]` for non-negative bounds: clamps like Python does. -/
def pySlice (t : List Char) (a b : Nat) : List Char := (t.drop a).take (b - a)

/-- RegexMatch from `src/src/matching.py` (fields `start`, `end`, `text`,
`captured_groups`); `end` is a Lean keyword, so the field is called `mend`. -/
structure PyRegexMatch where
  start : Nat
  mend : Nat
  text : List Char
  captured_groups : List Nat
deriving DecidableEq

/-- Embeds `RegexMatch.group_to_string` (matching.py lines 18-25).  The outer
`Option` is exception behaviour: `none` means the unguarded list indexing
raised `IndexError`.  The test `frm ≠ pyMaxsize ∧ frm ≠ pyMaxsize` checks
`frm` twice, exactly as the source line 23 does (`to` is never tested). -/
def group_to_string (m : PyRegexMatch) (group_index : Nat) :
    Option (Option (List Char)) :=
  match m.captured_groups.get? (group_index * 2),
        m.captured_groups.get? (group_index * 2 + 1) with
  | some frm, some toPos =>
    if frm ≠ pyMaxsize ∧ frm ≠ pyMaxsize then some (some (pySlice m.text frm toPos))
    else some none
  | _, _ => none

/-- Embeds `RegexMatch.group` (matching.py lines 41-46): the guard raises
`IndexError` when `index < 0` or `index > len(captured_groups)`; index `0`
returns the whole match `text[start:end]`. -/
def PyRegexMatch.group (m : PyRegexMatch) (index : Int) :
    Option (Option (List Char)) :=
  if index < 0 ∨ index > (m.captured_groups.length : Int) then none
  else if index = 0 then some (some (pySlice m.text m.start m.mend))
  else group_to_string m (index - 1).toNat

/-- Embeds the scanning loop of `RegexPattern.finditer` (matching.py lines
89-109), generic in the abstract method `match_suffix` (here `ms`, already
applied to the fixed text, flags and fresh groups vector, so it maps a start
position to the final cursor's position and groups).  The `while start <=
len(text)` loop gets a fuel argument; `finditer` below applies the fuel
`text.length + 1` that the termination theorem justifies. -/
def finditerAux (ms : Nat → Option (Nat × List Nat)) (text : List Char) :
    Nat → Nat → List PyRegexMatch
  | 0, _ => []
  | fuel + 1, start =>
    if start ≤ text.length then
      match ms start with
      | some (position, captured_groups) =>
        ⟨start, position, text, captured_groups⟩ ::
          finditerAux ms text fuel (if position = start then position + 1 else position)
      | none => finditerAux ms text fuel (start + 1)
    else []

/-- `finditer` with the sufficient fuel `len(text) + 1`. -/
def finditer (ms : Nat → Option (Nat × List Nat)) (text : List Char) :
    List PyRegexMatch :=
  finditerAux ms text (text.length + 1) 0

/-- The chunk-accumulating loop of `RegexPattern._sub` (matching.py lines
132-142): for each match append `string[start:match.start]` and `r(match)`,
continue from `match.end`, and finally append `string[start:]`; the second
component counts the substitutions. -/
def subAux (text : List Char) (r : PyRegexMatch → List Char) :
    List PyRegexMatch → Nat → List Char × Nat
  | [], start => (text.drop start, 0)
  | m :: rest, start =>
    (pySlice text start m.start ++ r m ++ (subAux text r rest m.mend).1,
      (subAux text r rest m.mend).2 + 1)

/-- The `isinstance(replacer, str)` branch of `_sub` (matching.py lines
125-131): a string replacer becomes the constant function. -/
def toReplacerFun : List Char ⊕ (PyRegexMatch → List Char) →
    PyRegexMatch → List Char
  | Sum.inl s, _ => s
  | Sum.inr f, m => f m

/-- Embeds `RegexPattern._sub` (matching.py lines 119-142):
`take(count, finditer(string))` then the chunk loop. -/
def sub_impl (ms : Nat → Option (Nat × List Nat)) (text : List Char)
    (replacer : List Char ⊕ (PyRegexMatch → List Char)) (count : Nat) :
    List Char × Nat :=
  subAux text (toReplacerFun replacer) ((finditer ms text).take count) 0

/-- Embeds `RegexPattern.subn` (matching.py lines 144-150), which just
returns `_sub(string, replacer, count)`. -/
def subn (ms : Nat → Option (Nat × List Nat)) (text : List Char)
    (replacer : List Char ⊕ (PyRegexMatch → List Char)) (count : Nat) :
    List Char × Nat :=
  sub_impl ms text replacer count

/-- The callable replacer `lambda m: m.group(0)` used by the round-trip
property: `group(0)` is `m.text[m.start:m.end]` (matching.py line 45). -/
def idGroupRepl : PyRegexMatch → List Char :=
  fun m => pySlice m.text m.start m.mend

/-- Modelled from the spec: the `match_suffix` of the single-literal pattern
`c` (no capture groups).  Such a pattern matches exactly one character, so at
a start position where `text[start] == c` the final cursor position is
`start + 1` and the groups vector stays empty; elsewhere there is no match. -/
def litMS (c : Char) (text : List Char) : Nat → Option (Nat × List Nat) :=
  fun start => if text.get? start = some c then some (start + 1, []) else none

/-- The concrete text `"aa"` used by the counterexamples and witnesses. -/
def aaT : List Char := ['a', 'a']

/-- Transition label of the legacy `src/nfa.py` automaton: the distinguished
`Epsilon` marker or an ordinary character symbol (modelled from the spec's
`Matchable` variants; `parser.py` with the `Epsilon` class is not in src). -/
inductive NSym
  | eps
  | chr (c : Char)
deriving DecidableEq

/-- The legacy `NFA` of `src/nfa.py`: a transition table (the class is a
`defaultdict(State, set[Transition])`, flattened here to a list of
`(start, symbol, end)` triples), the single accept state, the set of states
flagged `lazy`, and the alphabet `self.symbols`. -/
structure PyNFA where
  trans : List (Nat × NSym × Nat)
  accept : Nat
  lazyStates : List Nat
  symbols : List NSym

/-- Embeds `NFA.filter` (nfa.py lines 69-70): the end states of the
transitions out of `start` whose symbol equals `matchable`. -/
def PyNFA.filter (n : PyNFA) (start : Nat) (matchable : NSym) : List Nat :=
  n.trans.filterMap (fun t =>
    if t.1 = start ∧ t.2.1 = matchable then some t.2.2 else none)

/-- All targets of ε-labelled transitions of the NFA; every state the
ε-closure DFS can push is among these. -/
def PyNFA.epsTargets (n : PyNFA) : List Nat :=
  n.trans.filterMap (fun t => if t.2.1 = NSym.eps then some t.2.2 else none)

/-- The DFS loop of `NFA.epsilon_closure` (nfa.py lines 85-93) with an
explicit fuel to express the unbounded `while stack`.  `seen` and `closure`
in the source hold exactly the same elements (a state enters both in the
same iteration), so a single list plays both roles.  Python pushes with
`stack.extend(...)` and pops from the end; with the head of the list as the
top of the stack that is `(...).reverse ++ stack`. -/
def closureAux (n : PyNFA) : Nat → List Nat → List Nat → List Nat
  | 0, seen, _ => seen
  | _ + 1, seen, [] => seen
  | fuel + 1, seen, u :: stack =>
    if u ∈ seen then closureAux n fuel seen stack
    else closureAux n fuel (u :: seen) ((n.filter u NSym.eps).reverse ++ stack)

/-- Fuel sufficient for `closureAux` to drain its stack: at most
`S.length + trans.length` distinct states ever enter `seen`, each pushing at
most `trans.length` successors (see `closureAux_complete`). -/
def closureFuel (n : PyNFA) (S : List Nat) : Nat :=
  (S.length + n.trans.length) * (n.trans.length + 1) + S.length + 1

/-- Embeds `NFA.epsilon_closure` (nfa.py lines 72-94) with the provably
sufficient fuel. -/
def PyNFA.epsilon_closure (n : PyNFA) (states : List Nat) : List Nat :=
  closureAux n (closureFuel n states) [] states

/-- Embeds `NFA.move` (nfa.py lines 96-99): the union of `filter(state,
symbol)` over the states, as a list with set meaning. -/
def PyNFA.move (n : PyNFA) (states : List Nat) (symbol : NSym) : List Nat :=
  (states.map (fun s => n.filter s symbol)).flatten

/-- States ε-reachable from the set `S`: the specification of what
`epsilon_closure` computes. -/
inductive EpsReach (n : PyNFA) (S : List Nat) : Nat → Prop
  | base {s : Nat} : s ∈ S → EpsReach n S s
  | step {u v : Nat} : EpsReach n S u → v ∈ n.filter u NSym.eps → EpsReach n S v

/-- DFAState of `src/core.py` as used by nfa.py: the underlying set of NFA
states (`sources`, kept as a list with set meaning) plus the `accepts` and
`lazy` flags (modelled from the spec; `core.py` is not in src). -/
structure DFAState where
  sources : List Nat
  accepts : Bool
  lazy : Bool
deriving DecidableEq

/-- Embeds `NFA.gen_dfa_state_set_flags` (nfa.py lines 107-112): accepts iff
`self.accept` is among the sources, lazy iff any source is lazy. -/
def gen_dfa_state_set_flags (n : PyNFA) (sources : List Nat) : DFAState :=
  { sources := sources
    accepts := sources.contains n.accept
    lazy := sources.any (fun s => n.lazyStates.contains s) }

/-- Equality of the lists `a` and `b` viewed as sets: how membership of a
`frozenset` in the Python `seen` set is decided. -/
def listSetEq (a b : List Nat) : Bool :=
  a.all (fun x => b.contains x) && b.all (fun x => a.contains x)

/-- The `for symbol in self.symbols` loop of
`compute_transitions_for_dfa_state` (nfa.py lines 128-135), threading the
accumulated transition additions `dfa[d].add(Transition(symbol, df))`, the
`seen` set of frozensets and the work `stack`. -/
def ctfdsLoop (n : PyNFA) (eps : List Nat) :
    List NSym → List (NSym × DFAState) × List (List Nat) × List DFAState →
    List (NSym × DFAState) × List (List Nat) × List DFAState
  | [], acc => acc
  | symbol :: rest, (adds, seen, stack) =>
    let next_states_set := n.epsilon_closure (n.move eps symbol)
    let df := gen_dfa_state_set_flags n next_states_set
    if seen.any (fun s => listSetEq s next_states_set) then
      ctfdsLoop n eps rest (adds ++ [(symbol, df)], seen, stack)
    else
      ctfdsLoop n eps rest
        (adds ++ [(symbol, df)], seen ++ [next_states_set], stack ++ [df])

/-- Embeds `NFA.compute_transitions_for_dfa_state` (nfa.py lines 114-136).
It returns the generated source state `d` together with the list of
transitions added out of `d` (one `dfa[d].add` per loop iteration) and the
updated `seen` / `stack`; registering `d` in `dfa.accept` mutates only the
driver's DFA and is not needed by the claims. -/
def compute_transitions_for_dfa_state (n : PyNFA) (dfa_from : DFAState)
    (seen : List (List Nat)) (stack : List DFAState) :
    DFAState × (List (NSym × DFAState) × List (List Nat) × List DFAState) :=
  let eps := n.epsilon_closure dfa_from.sources
  let d := gen_dfa_state_set_flags n eps
  (d, ctfdsLoop n eps n.symbols ([], seen, stack))

/-- A one-transition NFA (`0 --ε--> 1`, accept `1`, alphabet `{a}`) used by
the subset-construction witness. -/
def witNFA : PyNFA :=
  { trans := [(0, NSym.eps, 1)]
    accept := 1
    lazyStates := []
    symbols := [NSym.chr 'a'] }

/-- The DFA state `{0}` fed to the subset-construction witness. -/
def witDfaFrom : DFAState := ⟨[0], false, false⟩

/-- Matcher of `src/src/nfa_matcher.py`'s automata, modelled from the spec
(`src/parser.py` and `src/fsm.py` are not in src): a literal character
matcher or the `EPSILON` anchor.  `EPSILON(cursor)` is false — the source's
special case `transition.matcher is EPSILON and transition.end in
self.accepting_states` would be dead code otherwise. -/
inductive MatcherK
  | lit (c : Char)
  | eps
deriving DecidableEq

/-- Modelled from the spec: `matcher(cursor, context)` — a literal matches
when the current character equals it, `EPSILON` never matches by itself. -/
def MatcherK.matches : MatcherK → List Char → Nat → Bool
  | .lit c, text, position => text.get? position == some c
  | .eps, _, _ => false

/-- Modelled from the spec: `matcher.update_index(cursor)` — consuming
matchers advance the position by one, anchors leave it unchanged. -/
def MatcherK.update_index : MatcherK → Nat → Nat
  | .lit _, position => position + 1
  | .eps, position => position

/-- Modelled from the spec: `isinstance(matcher, Anchor)`. -/
def MatcherK.is_anchor : MatcherK → Bool
  | .lit _ => false
  | .eps => true

/-- Automaton driven by `RegexNFA`'s match routines: start state, accepting
states, the state list and the ordered adjacency `self[state]` (modelled
from the spec's automaton record; `src/fsm.py` is not in src). -/
structure FSMAut where
  start_state : Nat
  accepting_states : List Nat
  states : List Nat
  transitions : Nat → List (MatcherK × Nat)

/-- Modelled from the spec: `self.transition(state, EPSILON, True)` — the
ε-successors of `state` in transition order. -/
def FSMAut.transitionEps (A : FSMAut) (state : Nat) : List Nat :=
  (A.transitions state).filterMap (fun t =>
    if t.1 = MatcherK.eps then some t.2 else none)

/-- Largest element of a list of positions, `none` when empty: the
`if matching_cursors: return max(matching_cursors, key=itemgetter(0))`
idiom of `_match_suffix_dfa` (the group-free cursor is just its position). -/
def listMaxNat : List Nat → Option Nat
  | [] => none
  | a :: l => (listMaxNat l).elim (some a) (fun b => some (max a b))

/-- Maximum of two optional positions, used to reason about `listMaxNat`. -/
def omax : Option Nat → Option Nat → Option Nat
  | none, b => b
  | some a, none => some a
  | some a, some b => some (max a b)

/-- Embeds `RegexNFA._match_suffix_dfa` (nfa_matcher.py lines 34-65): a
depth-first walk that records the cursor at every accepting state and
returns the maximum position, with fuel for the recursion. -/
def matchSuffixDfaAux (A : FSMAut) (text : List Char) :
    Nat → Nat → Nat → Option Nat
  | 0, _, _ => none
  | fuel + 1, state, position =>
    listMaxNat
      ((if state ∈ A.accepting_states then [position] else []) ++
        (A.transitions state).filterMap (fun t =>
          if t.1.matches text position then
            matchSuffixDfaAux A text fuel t.2 (t.1.update_index position)
          else none))

/-- Fuel for `matchSuffixDfaAux`, ample for the concrete runs below. -/
def dfaFuel (A : FSMAut) (text : List Char) : Nat :=
  (text.length + 1) * (A.states.length + 1) + 1

/-- `_match_suffix_dfa` with its fuel applied. -/
def matchSuffixDfa (A : FSMAut) (text : List Char) (state position : Nat) :
    Option Nat :=
  matchSuffixDfaAux A text (dfaFuel A text) state position

/-- All positions at which the depth-first walk of `_match_suffix_dfa`
passes an accepting state: the candidate cursors it maximises over. -/
def dfaAccPositions (A : FSMAut) (text : List Char) :
    Nat → Nat → Nat → List Nat
  | 0, _, _ => []
  | fuel + 1, state, position =>
    (if state ∈ A.accepting_states then [position] else []) ++
      ((A.transitions state).map (fun t =>
        if t.1.matches text position then
          dfaAccPositions A text fuel t.2 (t.1.update_index position)
        else [])).flatten

/-- The DFS of `RegexNFA.step` (nfa_matcher.py lines 67-103): a stack of
`(completed, state)` pairs; on the completed (second) visit of a state its
outgoing transitions that match — or are ε into an accepting state — are
appended.  The source pushes `(True, state)` and then the reversed
ε-successors onto a pop-from-the-end stack; with the list head as the top
that is the ε-successors in order followed by `(true, state)`. -/
def stepDfs (A : FSMAut) (text : List Char) (position : Nat) :
    Nat → List (Bool × Nat) → List Nat → List (MatcherK × Nat) →
    List (MatcherK × Nat)
  | 0, _, _, transitions => transitions
  | _ + 1, [], _, transitions => transitions
  | fuel + 1, (completed, state) :: stack, explored, transitions =>
    let transitions' :=
      if completed then
        transitions ++ (A.transitions state).filter (fun t =>
          t.1.matches text position ||
            (decide (t.1 = MatcherK.eps) && decide (t.2 ∈ A.accepting_states)))
      else transitions
    if state ∈ explored then stepDfs A text position fuel stack explored transitions'
    else
      stepDfs A text position fuel
        ((A.transitionEps state).map (fun nxt => (false, nxt)) ++
          (true, state) :: stack)
        (state :: explored) transitions'

/-- Fuel for `stepDfs`: each state is completed once, pushing at most its
out-degree of work; generous for the concrete runs below. -/
def stepFuel (A : FSMAut) : Nat :=
  1 + A.states.length *
    (2 + (A.states.map (fun s => (A.transitions s).length)).sum)

/-- Embeds `RegexNFA.step` with its fuel applied. -/
def step (A : FSMAut) (text : List Char) (state position : Nat) :
    List (MatcherK × Nat) :=
  stepDfs A text position (stepFuel A) [(false, state)] [] []

/-- The backtracking stack loop of `RegexNFA._match_suffix_no_groups`
(nfa_matcher.py lines 210-238): pop `(state, position, path)`, return the
position at an accepting state, otherwise push the `step` transitions —
anchor targets are skipped when already on `path` and extend it, consuming
targets reset it.  The source iterates `reversed(step(...))` onto a
pop-from-the-end stack, i.e. it prepends the transitions in their original
priority order; with the list head as the top that is `(...) ++ stack`. -/
def msNoGroupsAux (A : FSMAut) (text : List Char) :
    Nat → List (Nat × Nat × List Nat) → Option Nat
  | 0, _ => none
  | _ + 1, [] => none
  | fuel + 1, (state, position, path) :: stack =>
    if state ∈ A.accepting_states then some position
    else
      msNoGroupsAux A text fuel
        ((step A text state position).filterMap (fun t =>
          if t.1.is_anchor then
            if t.2 ∈ path then none
            else some (t.2, t.1.update_index position, path ++ [t.2])
          else some (t.2, t.1.update_index position, ([] : List Nat))) ++ stack)

/-- Fuel for the backtracking loop, ample for the concrete runs below. -/
def msFuel (A : FSMAut) (text : List Char) : Nat :=
  (text.length + 2) * stepFuel A + 1

/-- Embeds `RegexNFA._match_suffix_no_groups` with its fuel applied,
starting from `self.start_state`. -/
def matchSuffixNoGroups (A : FSMAut) (text : List Char) (position : Nat) :
    Option Nat :=
  msNoGroupsAux A text (msFuel A text) [(A.start_state, position, [])]

/-- Modelled from the spec §4.3: the Thompson NFA of the group-free pattern
`a|aa`.  Literal fragments `1 -a-> 2` and `3 -a-> 4, 4 -ε-> 5, 5 -a-> 6`
(concatenation wires accept to start with ε), alternation start `0` with ε
to the first branch then the second, both branch accepts ε into `7`. -/
def nfaAltAA : FSMAut :=
  { start_state := 0
    accepting_states := [7]
    states := [0, 1, 2, 3, 4, 5, 6, 7]
    transitions := fun s =>
      match s with
      | 0 => [(MatcherK.eps, 1), (MatcherK.eps, 3)]
      | 1 => [(MatcherK.lit 'a', 2)]
      | 2 => [(MatcherK.eps, 7)]
      | 3 => [(MatcherK.lit 'a', 4)]
      | 4 => [(MatcherK.eps, 5)]
      | 5 => [(MatcherK.lit 'a', 6)]
      | 6 => [(MatcherK.eps, 7)]
      | _ => [] }

/-- Modelled from the spec §4.4: the subset-construction DFA of `nfaAltAA`.
State `0` is `ε-closure({0}) = {0,1,3}`, state `1` is `{2,7,4,5}` and state
`2` is `{6,7}`; the latter two contain the NFA accept `7`, so they accept. -/
def dfaAltAA : FSMAut :=
  { start_state := 0
    accepting_states := [1, 2]
    states := [0, 1, 2]
    transitions := fun s =>
      match s with
      | 0 => [(MatcherK.lit 'a', 1)]
      | 1 => [(MatcherK.lit 'a', 2)]
      | _ => [] }

/-- Match record of the legacy `src/match.py` (fields `start`, `end`,
`substr`; `end` is a Lean keyword, so the field is called `mend`).  The
indices are `Int` because the trailing end-of-text adjustment computes
`current_index - 1`, which is `-1` on empty text in Python. -/
structure LegacyMatch where
  start : Int
  mend : Int
  substr : List Char
deriving DecidableEq

/-- The legacy compiled automaton driven by `Matcher.search_from`, modelled
from the spec (`core.py` / `pyreg.py` are not in src): `match_atom` is the
deterministic step — given the current state and position it returns the
taken transition's symbol (here only whether it is an `Anchor`) and the next
state, or `None` when no transition fires. -/
structure LegacyAutom where
  start_state : Nat
  accepts : Nat → Bool
  match_atom : Nat → Int → Option (Bool × Nat)

/-- Python index semantics for a slice bound: negative indices count from
the end, then the bound is clamped into `[0, len]`. -/
def pyIdx (len : Nat) (i : Int) : Nat :=
  if i < 0 then ((len : Int) + i).toNat else min i.toNat len

/-- Python slice `t[a:b]` for `Int` bounds. -/
def pySliceI (t : List Char) (a b : Int) : List Char :=
  (t.drop (pyIdx t.length a)).take (pyIdx t.length b - pyIdx t.length a)

/-- The `while current_index < len(self.text)` loop of `Matcher.search_from`
(match.py lines 39-51) with fuel: follow `match_atom`, break on `None`,
append `current_index` to `accepting_indices` when the new state accepts,
and advance the index only on non-`Anchor` symbols.  The final `Bool` is
true when the loop exited by its condition or `break` (rather than by
running out of fuel). -/
def searchLoop (A : LegacyAutom) (len : Int) :
    Nat → Nat → Int → List Int → Nat × Int × List Int × Bool
  | 0, state, index, acc => (state, index, acc, false)
  | fuel + 1, state, index, acc =>
    if index < len then
      match A.match_atom state index with
      | none => (state, index, acc, true)
      | some (isAnchorSym, next_state) =>
        searchLoop A len fuel next_state
          (if isAnchorSym then index else index + 1)
          (if A.accepts next_state then acc ++ [index] else acc)
    else (state, index, acc, true)

/-- The tail of `Matcher.search_from` (match.py lines 53-70): the trailing
end-of-text check appends `current_index - 1` on an accepting transition,
then the last accepting index `i` yields `Match(start_index, i + 1,
text[start_index : i + 1])` and the new scan start `i + 1` (or `None` and
`start_index + 1`). -/
def searchPost (A : LegacyAutom) (text : List Char) (start : Int) :
    Nat × Int × List Int × Bool → Option LegacyMatch × Int
  | (state, index, acc, _) =>
    let acc2 :=
      if index ≥ (text.length : Int) then
        match A.match_atom state index with
        | some (_, next_state) =>
          if A.accepts next_state then acc ++ [index - 1] else acc
        | none => acc
      else acc
    match acc2.getLast? with
    | some i => (some ⟨start, i + 1, pySliceI text start (i + 1)⟩, i + 1)
    | none => (none, start + 1)

/-- Embeds `Matcher.search_from` (match.py lines 34-70): the scanning loop
followed by the trailing end-of-text check and match construction. -/
def search_from (A : LegacyAutom) (text : List Char) (fuel : Nat)
    (start : Int) : Option LegacyMatch × Int :=
  searchPost A text start
    (searchLoop A (text.length : Int) fuel A.start_state start [])

/-- A compiled pattern consisting of a single always-true zero-width anchor
(for instance `\b` tested where it holds): state `0` takes the anchor into
the accepting state `1`, which has no outgoing transition. -/
def mainAnchorAut : LegacyAutom :=
  { start_state := 0
    accepts := fun s => s == 1
    match_atom := fun s _ => if s = 0 then some (true, 1) else none }

/-- A compiled pattern like `a$` on text `"a"`: state `0` consumes `'a'` at
position `0` into state `1`, and state `1` takes an end-of-text anchor at
position `1` into the accepting state `2`. -/
def endAnchorAut : LegacyAutom :=
  { start_state := 0
    accepts := fun s => s == 2
    match_atom := fun s i =>
      if s = 0 ∧ i = 0 then some (false, 1)
      else if s = 1 ∧ i = 1 then some (true, 2)
      else none }

/-- The concrete text `"a"` used by the `search_from` runs. -/
def oneA : List Char := ['a']

/-- The matches of `l` lie beyond `start`, are well formed (`start ≤ end`)
and each starts no earlier than its predecessor ends: the shape of a
`finditer` result that the round-trip argument consumes. -/
def coversFrom : Nat → List PyRegexMatch → Prop
  | _, [] => True
  | start, m :: rest => start ≤ m.start ∧ m.start ≤ m.mend ∧ coversFrom m.mend rest

/-- A match whose group-1 end slot still holds the `maxsize` sentinel while
the start slot is `0`: the input exhibiting the `group_to_string` slip. -/
def c6Match : PyRegexMatch := ⟨0, 0, ['a', 'b'], [0, pyMaxsize]⟩

/-- A one-group match with both slots of group 1 filled, used as the
`group` guard witness. -/
def witGroupMatch : PyRegexMatch := ⟨0, 1, ['a', 'b'], [0, 1]⟩



/-! ### Theorems about `matching.py` -/

theorem finditerAux_of_gt (ms : Nat → Option (Nat × List Nat))
    (text : List Char) (fuel start : Nat) (h : text.length < start) :
    finditerAux ms text fuel start = [] := by
  cases fuel with
  | zero => rfl
  | succ fuel => simp only [finditerAux, if_neg (by omega : ¬ start ≤ text.length)]

theorem litMS_ge (c : Char) (text : List Char) :
    ∀ s p g, litMS c text s = some (p, g) → s ≤ p := by
  intro s p g h
  unfold litMS at h
  split at h
  · simp only [Option.some.injEq, Prod.mk.injEq] at h
    omega
  · simp at h

theorem finditerAux_start_le (ms : Nat → Option (Nat × List Nat))
    (text : List Char) (hms : ∀ s p g, ms s = some (p, g) → s ≤ p) :
    ∀ fuel start m, m ∈ finditerAux ms text fuel start → start ≤ m.start := by
  intro fuel
  induction fuel with
  | zero => intro start m hm; simp [finditerAux] at hm
  | succ fuel ih =>
    intro start m hm
    rw [finditerAux] at hm
    by_cases hs : start ≤ text.length
    · rw [if_pos hs] at hm
      cases hmm : ms start with
      | none =>
        rw [hmm] at hm
        exact le_trans (Nat.le_succ start) (ih _ _ hm)
      | some pg =>
        obtain ⟨p, g⟩ := pg
        rw [hmm] at hm
        rcases List.mem_cons.mp hm with h | h
        · subst h; exact le_refl _
        · have hrest := ih _ _ h
          have hsp := hms _ _ _ hmm
          split at hrest <;> omega
    · rw [if_neg hs] at hm
      simp at hm

theorem finditerAux_text_eq (ms : Nat → Option (Nat × List Nat))
    (text : List Char) :
    ∀ fuel start m, m ∈ finditerAux ms text fuel start → m.text = text := by
  intro fuel
  induction fuel with
  | zero => intro start m hm; simp [finditerAux] at hm
  | succ fuel ih =>
    intro start m hm
    rw [finditerAux] at hm
    by_cases hs : start ≤ text.length
    · rw [if_pos hs] at hm
      cases hmm : ms start with
      | none => rw [hmm] at hm; exact ih _ _ hm
      | some pg =>
        obtain ⟨p, g⟩ := pg
        rw [hmm] at hm
        rcases List.mem_cons.mp hm with h | h
        · subst h; rfl
        · exact ih _ _ h
    · rw [if_neg hs] at hm
      simp at hm

theorem finditerAux_mend_ge (ms : Nat → Option (Nat × List Nat))
    (text : List Char) (hms : ∀ s p g, ms s = some (p, g) → s ≤ p) :
    ∀ fuel start m, m ∈ finditerAux ms text fuel start → m.start ≤ m.mend := by
  intro fuel
  induction fuel with
  | zero => intro start m hm; simp [finditerAux] at hm
  | succ fuel ih =>
    intro start m hm
    rw [finditerAux] at hm
    by_cases hs : start ≤ text.length
    · rw [if_pos hs] at hm
      cases hmm : ms start with
      | none => rw [hmm] at hm; exact ih _ _ hm
      | some pg =>
        obtain ⟨p, g⟩ := pg
        rw [hmm] at hm
        rcases List.mem_cons.mp hm with h | h
        · subst h; exact hms _ _ _ hmm
        · exact ih _ _ h
    · rw [if_neg hs] at hm
      simp at hm

theorem finditerAux_fuel_eq (ms : Nat → Option (Nat × List Nat))
    (text : List Char) (hms : ∀ s p g, ms s = some (p, g) → s ≤ p) :
    ∀ f1 f2 start, text.length + 1 - start ≤ f1 → text.length + 1 - start ≤ f2 →
    finditerAux ms text f1 start = finditerAux ms text f2 start := by
  intro f1
  induction f1 with
  | zero =>
    intro f2 start h1 _
    have hgt : text.length < start := by omega
    rw [finditerAux_of_gt ms text _ _ hgt, finditerAux_of_gt ms text _ _ hgt]
  | succ f ih =>
    intro f2 start h1 h2
    by_cases hs : start ≤ text.length
    · obtain ⟨g2, rfl⟩ : ∃ g2, f2 = g2 + 1 := by
        cases f2 with
        | zero => omega
        | succ g2 => exact ⟨g2, rfl⟩
      simp only [finditerAux, if_pos hs]
      cases hmm : ms start with
      | none => exact ih g2 (start + 1) (by omega) (by omega)
      | some pg =>
        obtain ⟨p, gr⟩ := pg
        have hsp := hms _ _ _ hmm
        have hnext : start < (if p = start then p + 1 else p) := by
          split <;> omega
        exact congrArg
          (fun l => (⟨start, p, text, gr⟩ : PyRegexMatch) :: l)
          (ih g2 (if p = start then p + 1 else p) (by omega) (by omega))
    · have hgt : text.length < start := by omega
      rw [finditerAux_of_gt ms text _ _ hgt, finditerAux_of_gt ms text _ _ hgt]

theorem finditerAux_length_le (ms : Nat → Option (Nat × List Nat))
    (text : List Char) :
    ∀ fuel start, (finditerAux ms text fuel start).length ≤ fuel := by
  intro fuel
  induction fuel with
  | zero => intro start; simp [finditerAux]
  | succ fuel ih =>
    intro start
    rw [finditerAux]
    by_cases hs : start ≤ text.length
    · rw [if_pos hs]
      cases hmm : ms start with
      | none => exact le_trans (ih _) (Nat.le_succ _)
      | some pg =>
        obtain ⟨p, g⟩ := pg
        simpa using ih _
    · rw [if_neg hs]
      simp

/-- C1: under the documented hypothesis that `match_suffix` never returns a
position below the starting one, every iteration of the `finditer` scanning
loop strictly increases `start` (to `position + 1` on a zero-width match, to
`position` otherwise, to `start + 1` on a failed attempt), the loop needs at
most `len(text) + 1` iterations — running `finditerAux` with any fuel of at
least `text.length + 1` gives the same result — and it yields at most
`len(text) + 1` matches. -/
theorem finditer_terminates (ms : Nat → Option (Nat × List Nat))
    (text : List Char) (hms : ∀ s p g, ms s = some (p, g) → s ≤ p) :
    (∀ s p g, ms s = some (p, g) → s < (if p = s then p + 1 else p)) ∧
    (∀ fuel, text.length + 1 ≤ fuel →
      finditerAux ms text fuel 0 = finditer ms text) ∧
    (finditer ms text).length ≤ text.length + 1 := by
  refine ⟨?_, ?_, ?_⟩
  · intro s p g h
    have := hms s p g h
    split <;> omega
  · intro fuel hf
    exact finditerAux_fuel_eq ms text hms fuel (text.length + 1) 0
      (by omega) (by omega)
  · exact finditerAux_length_le ms text (text.length + 1) 0

/-- Witness for C1 at the literal pattern `a` on the text `"aa"`. -/
theorem finditer_terminates_witness :
    finditerAux (litMS 'a' aaT) aaT 7 0 = finditer (litMS 'a' aaT) aaT ∧
    (finditer (litMS 'a' aaT) aaT).length ≤ aaT.length + 1 :=
  ⟨(finditer_terminates (litMS 'a' aaT) aaT (litMS_ge 'a' aaT)).2.1 7 (by decide),
   (finditer_terminates (litMS 'a' aaT) aaT (litMS_ge 'a' aaT)).2.2⟩

/-- C2 counterexample: for the literal pattern `a` (whose `match_suffix`
satisfies the claim's hypothesis) on the text `"aa"`, `finditer` yields the
matches `(0,1)` and `(1,2)`; the first is non-empty yet the second starts
exactly at its end, so the claimed strict inequality for non-empty
predecessors fails. -/
theorem finditer_strict_cex :
    (∀ s p g, litMS 'a' aaT s = some (p, g) → s ≤ p) ∧
    finditer (litMS 'a' aaT) aaT = [⟨0, 1, aaT, []⟩, ⟨1, 2, aaT, []⟩] ∧
    ¬ List.Chain' (fun m m2 : PyRegexMatch =>
        m.mend ≤ m2.start ∧ (m.start < m.mend → m.mend < m2.start))
      (finditer (litMS 'a' aaT) aaT) := by
  refine ⟨litMS_ge 'a' aaT, by decide, ?_⟩
  intro h
  rw [(by decide : finditer (litMS 'a' aaT) aaT =
    [⟨0, 1, aaT, []⟩, ⟨1, 2, aaT, []⟩])] at h
  have h2 := (List.chain'_cons.mp h).1.2
  exact absurd (h2 (by decide)) (by decide)

theorem finditerAux_chain (ms : Nat → Option (Nat × List Nat))
    (text : List Char) (hms : ∀ s p g, ms s = some (p, g) → s ≤ p) :
    ∀ fuel start, List.Chain' (fun m m2 : PyRegexMatch =>
      m.mend ≤ m2.start ∧ (m.mend = m.start → m.mend < m2.start))
      (finditerAux ms text fuel start) := by
  intro fuel
  induction fuel with
  | zero => intro start; simp [finditerAux]
  | succ fuel ih =>
    intro start
    rw [finditerAux]
    by_cases hs : start ≤ text.length
    · rw [if_pos hs]
      cases hmm : ms start with
      | none => exact ih _
      | some pg =>
        obtain ⟨p, g⟩ := pg
        refine List.chain'_cons'.mpr ⟨?_, ih _⟩
        intro y hy
        have hmem := List.mem_of_mem_head? hy
        have hst := finditerAux_start_le ms text hms _ _ _ hmem
        have hsp := hms _ _ _ hmm
        constructor
        · show p ≤ y.start
          split at hst <;> omega
        · intro hpe
          show p < y.start
          have hps : p = start := hpe
          split at hst <;> omega
    · rw [if_neg hs]
      simp

/-- C2 as amended: the matches of `finditer` are ordered left to right and
non-overlapping — consecutive matches satisfy `m.end ≤ m'.start`, each match
satisfies `m.start ≤ m.end`, and the inequality `m.end < m'.start` is strict
whenever `m` is EMPTY (`m.end = m.start`), the zero-width skip; for a
non-empty `m` the next match may start exactly at `m.end`. -/
theorem finditer_nonoverlapping (ms : Nat → Option (Nat × List Nat))
    (text : List Char) (hms : ∀ s p g, ms s = some (p, g) → s ≤ p) :
    List.Chain' (fun m m2 : PyRegexMatch =>
      m.mend ≤ m2.start ∧ (m.mend = m.start → m.mend < m2.start))
      (finditer ms text) ∧
    ∀ m ∈ finditer ms text, m.start ≤ m.mend :=
  ⟨finditerAux_chain ms text hms _ _,
   fun m hm => finditerAux_mend_ge ms text hms _ _ m hm⟩

/-- Witness for the amended C2 at the literal pattern `a` on `"aa"`. -/
theorem finditer_nonoverlapping_witness :
    List.Chain' (fun m m2 : PyRegexMatch =>
      m.mend ≤ m2.start ∧ (m.mend = m.start → m.mend < m2.start))
      (finditer (litMS 'a' aaT) aaT) ∧
    ∀ m ∈ finditer (litMS 'a' aaT) aaT, m.start ≤ m.mend :=
  finditer_nonoverlapping (litMS 'a' aaT) aaT (litMS_ge 'a' aaT)

theorem pySlice_append_drop (t : List Char) (a b : Nat) (h : a ≤ b) :
    pySlice t a b ++ t.drop b = t.drop a := by
  unfold pySlice
  have hb : t.drop b = (t.drop a).drop (b - a) := by
    rw [List.drop_drop]
    congr 1
    omega
  rw [hb, List.take_append_drop]

theorem coversFrom_mono {a b : Nat} (h : a ≤ b) :
    ∀ l, coversFrom b l → coversFrom a l := by
  intro l hc
  cases l with
  | nil => trivial
  | cons m rest =>
    simp only [coversFrom] at hc ⊢
    exact ⟨le_trans h hc.1, hc.2⟩

theorem coversFrom_take :
    ∀ (l : List PyRegexMatch) (s n : Nat), coversFrom s l → coversFrom s (l.take n) := by
  intro l
  induction l with
  | nil => intro s n _; simp [List.take_nil, coversFrom]
  | cons m rest ih =>
    intro s n hc
    cases n with
    | zero => simp [coversFrom]
    | succ n =>
      simp only [List.take, coversFrom] at hc ⊢
      exact ⟨hc.1, hc.2.1, ih _ n hc.2.2⟩

theorem finditerAux_coversFrom (ms : Nat → Option (Nat × List Nat))
    (text : List Char) (hms : ∀ s p g, ms s = some (p, g) → s ≤ p) :
    ∀ fuel start, coversFrom start (finditerAux ms text fuel start) := by
  intro fuel
  induction fuel with
  | zero => intro start; simp [finditerAux, coversFrom]
  | succ fuel ih =>
    intro start
    rw [finditerAux]
    by_cases hs : start ≤ text.length
    · rw [if_pos hs]
      cases hmm : ms start with
      | none => exact coversFrom_mono (Nat.le_succ start) _ (ih (start + 1))
      | some pg =>
        obtain ⟨p, g⟩ := pg
        have hsp := hms _ _ _ hmm
        simp only [coversFrom]
        refine ⟨le_refl _, hsp, ?_⟩
        by_cases hpe : p = start
        · subst hpe
          rw [if_pos rfl]
          exact coversFrom_mono (Nat.le_succ p) _ (ih (p + 1))
        · rw [if_neg hpe]
          exact ih p
    · rw [if_neg hs]
      simp [coversFrom]

theorem subAux_round (text : List Char) :
    ∀ l start, coversFrom start l → (∀ m ∈ l, m.text = text) →
    (subAux text idGroupRepl l start).1 = text.drop start := by
  intro l
  induction l with
  | nil => intro start _ _; rfl
  | cons m rest ih =>
    intro start hc htxt
    simp only [coversFrom] at hc
    obtain ⟨h1, h2, h3⟩ := hc
    show pySlice text start m.start ++ idGroupRepl m ++
        (subAux text idGroupRepl rest m.mend).1 = text.drop start
    rw [ih m.mend h3 (fun x hx => htxt x (List.mem_cons_of_mem _ hx))]
    simp only [idGroupRepl]
    rw [htxt m (List.mem_cons_self _ _), List.append_assoc,
      pySlice_append_drop text m.start m.mend h2,
      pySlice_append_drop text start m.start h1]

/-- C3: concatenating each match's `group(0)` with the uncovered spans, in
order, reconstructs the text — equivalently, `_sub` with the callable
replacer `lambda m: m.group(0)` leaves the string unchanged (for every
count, so in particular for the unbounded `maxsize` default); hypothesis as
in C1: `match_suffix` never moves backwards. -/
theorem sub_round_trip (ms : Nat → Option (Nat × List Nat))
    (text : List Char) (count : Nat)
    (hms : ∀ s p g, ms s = some (p, g) → s ≤ p) :
    (sub_impl ms text (Sum.inr idGroupRepl) count).1 = text := by
  show (subAux text idGroupRepl ((finditer ms text).take count) 0).1 = text
  rw [subAux_round text ((finditer ms text).take count) 0
    (coversFrom_take _ 0 count (finditerAux_coversFrom ms text hms _ _))
    (fun m hm => finditerAux_text_eq ms text _ _ m (List.take_subset _ _ hm))]
  rfl

/-- Witness for C3 at the literal pattern `a` on `"aa"` with count 5. -/
theorem sub_round_trip_witness :
    (sub_impl (litMS 'a' aaT) aaT (Sum.inr idGroupRepl) 5).1 = aaT :=
  sub_round_trip (litMS 'a' aaT) aaT 5 (litMS_ge 'a' aaT)

theorem subAux_count (text : List Char) (r : PyRegexMatch → List Char) :
    ∀ l start, (subAux text r l start).2 = l.length := by
  intro l
  induction l with
  | nil => intro start; rfl
  | cons m rest ih =>
    intro start
    show (subAux text r rest m.mend).2 + 1 = rest.length + 1
    rw [ih]

/-- C4: the second component of `subn(text, r, k)` equals
`min(k, total_matches)` and in particular is at most `k`, where
`total_matches` is the total number of matches `finditer` yields; hypothesis
as in C1: `match_suffix` never moves backwards. -/
theorem subn_count (ms : Nat → Option (Nat × List Nat)) (text : List Char)
    (replacer : List Char ⊕ (PyRegexMatch → List Char)) (count : Nat)
    (_hms : ∀ s p g, ms s = some (p, g) → s ≤ p) :
    (subn ms text replacer count).2 = min count (finditer ms text).length ∧
    (subn ms text replacer count).2 ≤ count := by
  have h : (subn ms text replacer count).2 = min count (finditer ms text).length := by
    show (subAux text (toReplacerFun replacer) ((finditer ms text).take count) 0).2 =
      min count (finditer ms text).length
    rw [subAux_count, List.length_take]
  exact ⟨h, by rw [h]; exact min_le_left _ _⟩

/-- Witness for C4 at the literal pattern `a` on `"aa"` with count 1. -/
theorem subn_count_witness :
    (subn (litMS 'a' aaT) aaT (Sum.inl []) 1).2 =
      min 1 (finditer (litMS 'a' aaT) aaT).length ∧
    (subn (litMS 'a' aaT) aaT (Sum.inl []) 1).2 ≤ 1 :=
  subn_count (litMS 'a' aaT) aaT (Sum.inl []) 1 (litMS_ge 'a' aaT)

/-- C6: the failing input.  `group(1)` of a match whose group-1 start slot
is `0` but whose END slot still holds the `maxsize` sentinel returns the
slice `text[0:maxsize] = "ab"` rather than the `None` the claim (and spec)
require, because the source's guard on line 23 tests `frm` twice and never
tests `to`. -/
theorem group_end_sentinel_ignored :
    c6Match.captured_groups = [0, pyMaxsize] ∧
    c6Match.group 1 = some (some ['a', 'b']) ∧
    c6Match.group 1 ≠ some none :=
  ⟨rfl, by decide, by decide⟩

theorem group_to_string_isSome (m : PyRegexMatch) (j : Nat) :
    (group_to_string m j).isSome ↔ j * 2 + 1 < m.captured_groups.length := by
  unfold group_to_string
  cases h1 : m.captured_groups.get? (j * 2) with
  | none =>
    have hl := List.get?_eq_none.mp h1
    simp only [Option.isSome_none, Bool.false_eq_true, false_iff]
    omega
  | some a =>
    cases h2 : m.captured_groups.get? (j * 2 + 1) with
    | none =>
      have hl := List.get?_eq_none.mp h2
      simp only [Option.isSome_none, Bool.false_eq_true, false_iff]
      omega
    | some b =>
      have hl2 : j * 2 + 1 < m.captured_groups.length := by
        rcases List.get?_eq_some.mp h2 with ⟨hlt, _⟩
        exact hlt
      simp only [hl2, iff_true]
      split <;> simp

/-- C10: with `2·g` capture slots, `group(k)` completes without raising
exactly when `0 ≤ k ≤ g`; the explicit guard only rejects `k < 0` or
`k > 2·g`, so for `g < k ≤ 2·g` the guard passes and the exception instead
comes from the unguarded list indexing inside `group_to_string`. -/
theorem group_raises_iff (m : PyRegexMatch) (g : Nat)
    (h : m.captured_groups.length = 2 * g) :
    (∀ k : Int, (m.group k).isSome ↔ 0 ≤ k ∧ k ≤ (g : Int)) ∧
    (∀ k : Int, (g : Int) < k → k ≤ 2 * (g : Int) →
      m.group k = none ∧ group_to_string m (k - 1).toNat = none) := by
  constructor
  · intro k
    unfold PyRegexMatch.group
    split
    · rename_i hg
      simp only [Option.isSome_none, Bool.false_eq_true, false_iff]
      omega
    · rename_i hg
      split
      · rename_i h0
        subst h0
        simp only [Option.isSome_some, true_iff]
        omega
      · rename_i h0
        rw [group_to_string_isSome]
        omega
  · intro k hk1 hk2
    have hnone : group_to_string m (k - 1).toNat = none := by
      have hiff := group_to_string_isSome m (k - 1).toNat
      cases hgs : group_to_string m (k - 1).toNat with
      | none => rfl
      | some a =>
        rw [hgs] at hiff
        simp only [Option.isSome_some, true_iff] at hiff
        omega
    refine ⟨?_, hnone⟩
    unfold PyRegexMatch.group
    rw [if_neg (by omega), if_neg (by omega)]
    exact hnone

/-- Witness for C10 on a one-group match with both slots filled: `group 1`
completes, while `group 2` (which passes the guard, since `2 ≤ 2·1`) raises
from the inner indexing. -/
theorem group_raises_iff_witness :
    ((witGroupMatch.group 1).isSome ↔ 0 ≤ (1 : Int) ∧ (1 : Int) ≤ ((1 : Nat) : Int)) ∧
    (witGroupMatch.group 2 = none ∧
      group_to_string witGroupMatch ((2 : Int) - 1).toNat = none) :=
  ⟨(group_raises_iff witGroupMatch 1 rfl).1 1,
   (group_raises_iff witGroupMatch 1 rfl).2 2 (by decide) (by decide)⟩

/-! ### Theorems about `nfa.py` -/

theorem filter_eps_subset_targets (n : PyNFA) (u : Nat) :
    ∀ v ∈ n.filter u NSym.eps, v ∈ n.epsTargets := by
  intro v hv
  rcases List.mem_filterMap.mp hv with ⟨t, ht, heq⟩
  refine List.mem_filterMap.mpr ⟨t, ht, ?_⟩
  split at heq
  · rename_i hcond
    rw [if_pos hcond.2]
    exact heq
  · exact absurd heq (by simp)

theorem closureAux_sound (n : PyNFA) (P : Nat → Prop)
    (hP : ∀ u, P u → ∀ v ∈ n.filter u NSym.eps, P v) :
    ∀ fuel seen stack, (∀ x ∈ seen, P x) → (∀ x ∈ stack, P x) →
    ∀ u ∈ closureAux n fuel seen stack, P u := by
  intro fuel
  induction fuel with
  | zero => intro seen stack hseen _ u hu; exact hseen u hu
  | succ fuel ih =>
    intro seen stack hseen hstack u hu
    cases stack with
    | nil => exact hseen u hu
    | cons w stk =>
      simp only [closureAux] at hu
      split at hu
      · exact ih seen stk hseen
          (fun x hx => hstack x (List.mem_cons_of_mem _ hx)) u hu
      · refine ih _ _ ?_ ?_ u hu
        · intro x hx
          rcases List.mem_cons.mp hx with h | h
          · rw [h]; exact hstack w (List.mem_cons_self _ _)
          · exact hseen x h
        · intro x hx
          rcases List.mem_append.mp hx with h | h
          · exact hP w (hstack w (List.mem_cons_self _ _)) x (List.mem_reverse.mp h)
          · exact hstack x (List.mem_cons_of_mem _ h)

theorem closureAux_complete (n : PyNFA) :
    ∀ fuel (seen stack : List Nat),
    ((stack.toFinset ∪ n.epsTargets.toFinset) \ seen.toFinset).card *
        (n.trans.length + 1) + stack.length + 1 ≤ fuel →
    (∀ x ∈ stack, x ∈ closureAux n fuel seen stack) ∧
    (∀ x ∈ seen, x ∈ closureAux n fuel seen stack) ∧
    (∀ u ∈ closureAux n fuel seen stack, u ∉ seen →
      ∀ v ∈ n.filter u NSym.eps, v ∈ closureAux n fuel seen stack) := by
  intro fuel
  induction fuel with
  | zero => intro seen stack hf; omega
  | succ fuel ih =>
    intro seen stack hf
    cases stack with
    | nil =>
      simp only [closureAux]
      exact ⟨fun x hx => absurd hx (List.not_mem_nil x),
             fun x hx => hx,
             fun u hu hus _ _ => absurd hu hus⟩
    | cons w stk =>
      by_cases hw : w ∈ seen
      · have hsub : ((stk.toFinset ∪ n.epsTargets.toFinset) \ seen.toFinset).card ≤
            (((w :: stk).toFinset ∪ n.epsTargets.toFinset) \ seen.toFinset).card := by
          apply Finset.card_le_card
          apply Finset.sdiff_subset_sdiff _ (Finset.Subset.refl _)
          apply Finset.union_subset_union _ (Finset.Subset.refl _)
          rw [List.toFinset_cons]
          exact Finset.subset_insert _ _
        have hlen : (w :: stk).length = stk.length + 1 := rfl
        have hmul := Nat.mul_le_mul_right (n.trans.length + 1) hsub
        have hrec := ih seen stk (by omega)
        simp only [closureAux, if_pos hw]
        refine ⟨?_, hrec.2.1, hrec.2.2⟩
        intro x hx
        rcases List.mem_cons.mp hx with h | h
        · rw [h]; exact hrec.2.1 w hw
        · exact hrec.1 x h
      · have hwC : w ∈ (((w :: stk).toFinset ∪ n.epsTargets.toFinset) \ seen.toFinset) := by
          rw [Finset.mem_sdiff]
          refine ⟨Finset.mem_union_left _ ?_, ?_⟩
          · rw [List.toFinset_cons]
            exact Finset.mem_insert_self _ _
          · rw [List.mem_toFinset]
            exact hw
        have hCsub :
            (((n.filter w NSym.eps).reverse ++ stk).toFinset ∪ n.epsTargets.toFinset) \
              (w :: seen).toFinset ⊆
            ((((w :: stk).toFinset ∪ n.epsTargets.toFinset) \ seen.toFinset).erase w) := by
          intro x hx
          rw [Finset.mem_sdiff] at hx
          obtain ⟨hx1, hx2⟩ := hx
          have hxw : x ≠ w := by
            intro he
            subst he
            apply hx2
            rw [List.toFinset_cons]
            exact Finset.mem_insert_self _ _
          rw [Finset.mem_erase, Finset.mem_sdiff]
          refine ⟨hxw, ?_, ?_⟩
          · rcases Finset.mem_union.mp hx1 with h | h
            · rw [List.mem_toFinset, List.mem_append] at h
              rcases h with h | h
              · exact Finset.mem_union_right _ (List.mem_toFinset.mpr
                  (filter_eps_subset_targets n w x (List.mem_reverse.mp h)))
              · apply Finset.mem_union_left
                rw [List.toFinset_cons]
                exact Finset.mem_insert_of_mem (List.mem_toFinset.mpr h)
            · exact Finset.mem_union_right _ h
          · intro hxs
            apply hx2
            rw [List.toFinset_cons]
            exact Finset.mem_insert_of_mem hxs
        have hcard := Finset.card_le_card hCsub
        rw [Finset.card_erase_of_mem hwC] at hcard
        have hk : 1 ≤ ((((w :: stk).toFinset ∪ n.epsTargets.toFinset) \ seen.toFinset)).card :=
          Finset.card_pos.mpr ⟨w, hwC⟩
        have hmeas :
            ((((n.filter w NSym.eps).reverse ++ stk).toFinset ∪ n.epsTargets.toFinset) \
              (w :: seen).toFinset).card * (n.trans.length + 1) +
              ((n.filter w NSym.eps).reverse ++ stk).length + 1 ≤ fuel := by
          obtain ⟨kk, hkk⟩ := Nat.exists_eq_add_of_le hk
          rw [hkk] at hcard hf
          have h1 : ((((n.filter w NSym.eps).reverse ++ stk).toFinset ∪
                n.epsTargets.toFinset) \ (w :: seen).toFinset).card * (n.trans.length + 1) ≤
              kk * (n.trans.length + 1) :=
            Nat.mul_le_mul_right _ (by omega)
          have h3 : (1 + kk) * (n.trans.length + 1) =
              kk * (n.trans.length + 1) + (n.trans.length + 1) := by ring
          rw [h3] at hf
          have hFlen : (n.filter w NSym.eps).length ≤ n.trans.length :=
            List.length_filterMap_le _ _
          have hstlen : ((n.filter w NSym.eps).reverse ++ stk).length =
              (n.filter w NSym.eps).length + stk.length := by
            rw [List.length_append, List.length_reverse]
          have hwlen : (w :: stk).length = stk.length + 1 := rfl
          omega
        have hrec := ih (w :: seen) ((n.filter w NSym.eps).reverse ++ stk) hmeas
        simp only [closureAux, if_neg hw]
        refine ⟨?_, ?_, ?_⟩
        · intro x hx
          rcases List.mem_cons.mp hx with h | h
          · rw [h]; exact hrec.2.1 w (List.mem_cons_self _ _)
          · exact hrec.1 x (List.mem_append.mpr (Or.inr h))
        · intro x hx
          exact hrec.2.1 x (List.mem_cons_of_mem _ hx)
        · intro u hu hus v hv
          by_cases huw : u = w
          · rw [huw] at hv
            exact hrec.1 v (List.mem_append.mpr (Or.inl (List.mem_reverse.mpr hv)))
          · exact hrec.2.2 u hu
              (fun hc => (List.mem_cons.mp hc).elim huw hus) v hv

theorem closureFuel_sufficient (n : PyNFA) (S : List Nat) :
    ((S.toFinset ∪ n.epsTargets.toFinset) \ ([] : List Nat).toFinset).card *
      (n.trans.length + 1) + S.length + 1 ≤ closureFuel n S := by
  rw [List.toFinset_nil, Finset.sdiff_empty]
  have h2 : (S.toFinset ∪ n.epsTargets.toFinset).card ≤ S.length + n.trans.length := by
    have hu := Finset.card_union_le S.toFinset n.epsTargets.toFinset
    have hS := List.toFinset_card_le S
    have hT := List.toFinset_card_le n.epsTargets
    have hE : n.epsTargets.length ≤ n.trans.length := List.length_filterMap_le _ _
    omega
  unfold closureFuel
  have := Nat.mul_le_mul_right (n.trans.length + 1) h2
  omega

/-- C7: `epsilon_closure(S)` is the least set containing `S` and closed
under ε-transitions — every member of `S` is in the result, the result is
closed under one-step ε-transitions, and everything in the result is
ε-reachable from `S` (so any ε-closed superset of `S` contains it). -/
theorem epsilon_closure_spec (n : PyNFA) (S : List Nat) :
    (∀ s ∈ S, s ∈ n.epsilon_closure S) ∧
    (∀ u ∈ n.epsilon_closure S, ∀ v ∈ n.filter u NSym.eps,
      v ∈ n.epsilon_closure S) ∧
    (∀ u ∈ n.epsilon_closure S, EpsReach n S u) := by
  have hc := closureAux_complete n (closureFuel n S) [] S (closureFuel_sufficient n S)
  refine ⟨fun s hs => hc.1 s hs,
          fun u hu v hv => hc.2.2 u hu (List.not_mem_nil u) v hv, ?_⟩
  exact closureAux_sound n (EpsReach n S)
    (fun u hu v hv => EpsReach.step hu hv)
    (closureFuel n S) [] S
    (fun x hx => absurd hx (List.not_mem_nil x))
    (fun x hx => EpsReach.base hx)

theorem ctfdsLoop_cons (n : PyNFA) (eps : List Nat) (a : NSym) (rest : List NSym)
    (adds : List (NSym × DFAState)) (seen : List (List Nat)) (stack : List DFAState) :
    ctfdsLoop n eps (a :: rest) (adds, seen, stack) =
      if seen.any (fun s => listSetEq s (n.epsilon_closure (n.move eps a))) then
        ctfdsLoop n eps rest
          (adds ++ [(a, gen_dfa_state_set_flags n (n.epsilon_closure (n.move eps a)))],
            seen, stack)
      else
        ctfdsLoop n eps rest
          (adds ++ [(a, gen_dfa_state_set_flags n (n.epsilon_closure (n.move eps a)))],
            seen ++ [n.epsilon_closure (n.move eps a)],
            stack ++ [gen_dfa_state_set_flags n (n.epsilon_closure (n.move eps a))]) := rfl

theorem ctfdsLoop_adds (n : PyNFA) (eps : List Nat) :
    ∀ (syms : List NSym) adds seen stack,
    (ctfdsLoop n eps syms (adds, seen, stack)).1 =
      adds ++ syms.map (fun a =>
        (a, gen_dfa_state_set_flags n (n.epsilon_closure (n.move eps a)))) := by
  intro syms
  induction syms with
  | nil => intro adds seen stack; simp [ctfdsLoop]
  | cons a rest ih =>
    intro adds seen stack
    rw [ctfdsLoop_cons]
    split
    · rw [ih, List.append_assoc]
      rfl
    · rw [ih, List.append_assoc]
      rfl

theorem filter_fst_eq_nil {f : NSym → DFAState} :
    ∀ (l : List NSym) (a : NSym), a ∉ l →
    (l.map (fun x => (x, f x))).filter (fun p => decide (p.1 = a)) = [] := by
  intro l
  induction l with
  | nil => intro a _; rfl
  | cons b rest ih =>
    intro a ha
    have hba : ¬ (b = a) := fun h => ha (h ▸ List.mem_cons_self _ _)
    simp only [List.map_cons, List.filter_cons, decide_eq_true_eq]
    rw [if_neg hba]
    exact ih a (fun h => ha (List.mem_cons_of_mem _ h))

theorem filter_fst_count_one {f : NSym → DFAState} :
    ∀ (l : List NSym) (a : NSym), l.Nodup → a ∈ l →
    ((l.map (fun x => (x, f x))).filter (fun p => decide (p.1 = a))).length = 1 := by
  intro l
  induction l with
  | nil => intro a _ ha; simp at ha
  | cons b rest ih =>
    intro a hnd ha
    simp only [List.map_cons, List.filter_cons, decide_eq_true_eq]
    rcases List.mem_cons.mp ha with h | h
    · rw [if_pos h.symm]
      have hnotin : a ∉ rest := h ▸ (List.nodup_cons.mp hnd).1
      rw [filter_fst_eq_nil rest a hnotin]
      rfl
    · have hba : ¬ (b = a) := by
        intro hb
        exact (List.nodup_cons.mp hnd).1 (hb ▸ h)
      rw [if_neg hba]
      exact ih a (List.nodup_cons.mp hnd).2 h

/-- C8: one call of `compute_transitions_for_dfa_state` adds, out of the
generated state `d`, exactly the transitions `(a, ε-closure(move(ε-closure
(dfa_from.sources), a)))` for `a` ranging over `self.symbols` in order;
when the alphabet has no duplicates (it is a Python set) this is exactly one
outgoing transition per symbol, so no state gets two on the same symbol. -/
theorem compute_transitions_one_per_symbol (n : PyNFA) (dfa_from : DFAState)
    (seen : List (List Nat)) (stack : List DFAState) :
    (compute_transitions_for_dfa_state n dfa_from seen stack).2.1 =
      n.symbols.map (fun a =>
        (a, gen_dfa_state_set_flags n (n.epsilon_closure
          (n.move (n.epsilon_closure dfa_from.sources) a)))) ∧
    (n.symbols.Nodup → ∀ a ∈ n.symbols,
      ((compute_transitions_for_dfa_state n dfa_from seen stack).2.1.filter
        (fun p => decide (p.1 = a))).length = 1) := by
  have hchar : (compute_transitions_for_dfa_state n dfa_from seen stack).2.1 =
      n.symbols.map (fun a =>
        (a, gen_dfa_state_set_flags n (n.epsilon_closure
          (n.move (n.epsilon_closure dfa_from.sources) a)))) := by
    show (ctfdsLoop n (n.epsilon_closure dfa_from.sources) n.symbols
      ([], seen, stack)).1 = _
    rw [ctfdsLoop_adds]
    rfl
  refine ⟨hchar, fun hnd a ha => ?_⟩
  rw [hchar]
  exact filter_fst_count_one n.symbols a hnd ha

/-- Witness for C8 on the one-transition NFA with alphabet `{a}`. -/
theorem compute_transitions_one_per_symbol_witness :
    ((compute_transitions_for_dfa_state witNFA witDfaFrom [] []).2.1.filter
      (fun p => decide (p.1 = NSym.chr 'a'))).length = 1 :=
  (compute_transitions_one_per_symbol witNFA witDfaFrom [] []).2
    (by decide) (NSym.chr 'a') (by decide)

/-! ### Theorems about `nfa_matcher.py` -/

theorem listMaxNat_cons (a : Nat) (l : List Nat) :
    listMaxNat (a :: l) = omax (some a) (listMaxNat l) := by
  cases h : listMaxNat l <;> simp [listMaxNat, h, omax]

theorem listMaxNat_append (l1 l2 : List Nat) :
    listMaxNat (l1 ++ l2) = omax (listMaxNat l1) (listMaxNat l2) := by
  induction l1 with
  | nil =>
    cases h : listMaxNat l2 <;> simp [listMaxNat, omax, h]
  | cons a l1 ih =>
    rw [List.cons_append, listMaxNat_cons, ih, listMaxNat_cons]
    cases h1 : listMaxNat l1 <;> cases h2 : listMaxNat l2 <;>
      simp [omax, Nat.max_assoc]

theorem listMaxNat_filterMap_flatten {α : Type} (g : α → Option Nat)
    (h : α → List Nat) :
    ∀ l : List α, (∀ t ∈ l, g t = listMaxNat (h t)) →
    listMaxNat (l.filterMap g) = listMaxNat ((l.map h).flatten) := by
  intro l
  induction l with
  | nil => intro _; rfl
  | cons t rest ih =>
    intro hgt
    have hrest := ih (fun x hx => hgt x (List.mem_cons_of_mem _ hx))
    have hht := hgt t (List.mem_cons_self _ _)
    simp only [List.filterMap_cons, List.map_cons, List.flatten_cons]
    rw [listMaxNat_append, ← hrest, ← hht]
    cases hg : g t with
    | none => simp [omax]
    | some v => rw [listMaxNat_cons]

theorem matchSuffixDfaAux_eq_max (A : FSMAut) (text : List Char) :
    ∀ fuel state position,
    matchSuffixDfaAux A text fuel state position =
      listMaxNat (dfaAccPositions A text fuel state position) := by
  intro fuel
  induction fuel with
  | zero => intro state position; rfl
  | succ fuel ih =>
    intro state position
    simp only [matchSuffixDfaAux, dfaAccPositions]
    rw [listMaxNat_append, listMaxNat_append]
    congr 1
    apply listMaxNat_filterMap_flatten
    intro t _
    by_cases hm : t.1.matches text position = true
    · rw [if_pos hm, if_pos hm]
      exact ih t.2 (t.1.update_index position)
    · rw [if_neg hm, if_neg hm]
      rfl

/-- C5 counterexample: for the group-free pattern `a|aa` on the text `"aa"`
at start 0 (the NFA is the Thompson construction, the DFA its subset
construction), the DFA fast path returns end position 2 while the
backtracking strategy returns end position 1 — the spans differ. -/
theorem dfa_vs_backtracking_cex :
    matchSuffixDfa dfaAltAA aaT dfaAltAA.start_state 0 = some 2 ∧
    matchSuffixNoGroups nfaAltAA aaT 0 = some 1 ∧
    matchSuffixDfa dfaAltAA aaT dfaAltAA.start_state 0 ≠
      matchSuffixNoGroups nfaAltAA aaT 0 :=
  ⟨by decide, by decide, by decide⟩

/-- C5 as amended: the two strategies need not return identical spans.
What holds of `_match_suffix_dfa` is the longest-match rule: it returns the
maximum position over all accepting cursors its depth-first walk reaches
(`dfaAccPositions`), whereas the backtracking strategy returns the first
accepting cursor in transition-priority order; on `a|aa` over `"aa"` at
start 0 they give end 2 and end 1 respectively. -/
theorem dfa_fast_path_longest :
    (∀ (A : FSMAut) (text : List Char) (fuel state position : Nat),
      matchSuffixDfaAux A text fuel state position =
        listMaxNat (dfaAccPositions A text fuel state position)) ∧
    matchSuffixDfa dfaAltAA aaT dfaAltAA.start_state 0 = some 2 ∧
    matchSuffixNoGroups nfaAltAA aaT 0 = some 1 :=
  ⟨fun A text fuel state position => matchSuffixDfaAux_eq_max A text fuel state position,
   by decide, by decide⟩

/-! ### Theorems about `match.py` -/

theorem searchLoop_step_anchor (A : LegacyAutom) (len : Int) (fuel : Nat)
    (state : Nat) (index : Int) (acc : List Int) (s2 : Nat)
    (hlt : index < len) (hma : A.match_atom state index = some (true, s2))
    (hacc : A.accepts s2 = true) :
    searchLoop A len (fuel + 1) state index acc =
      searchLoop A len fuel s2 index (acc ++ [index]) := by
  simp [searchLoop, hlt, hma, hacc]

theorem searchLoop_break (A : LegacyAutom) (len : Int) (fuel : Nat)
    (state : Nat) (index : Int) (acc : List Int)
    (hlt : index < len) (hma : A.match_atom state index = none) :
    searchLoop A len (fuel + 1) state index acc = (state, index, acc, true) := by
  simp [searchLoop, hlt, hma]

/-- C9 as amended: zero-width anchors keep the reported match end at the
tested position only in the trailing end-of-text check — if the scanning
loop exits with `current_index = i ≥ len(text)` and the trailing
`match_atom` reaches an accepting state, the match ends at `i`, the very
position tested (the `i - 1` adjustment plus the `+ 1` of the match
construction cancel).  Inside the main scanning loop, an accepted anchor
transition at position `i` instead appends `i` itself to
`accepting_indices` while leaving the position unchanged, so when that
acceptance is the last one the reported match ends at `i + 1`: one past the
anchor's position, as the concrete always-true-anchor pattern shows. -/
theorem search_from_anchor_amended (A : LegacyAutom) (text : List Char)
    (fuel : Nat) (start : Int) :
    (∀ state index acc b next_state,
      searchLoop A (text.length : Int) fuel A.start_state start [] =
        (state, index, acc, true) →
      (text.length : Int) ≤ index →
      A.match_atom state index = some (b, next_state) →
      A.accepts next_state = true →
      search_from A text fuel start =
        (some ⟨start, index, pySliceI text start index⟩, index)) ∧
    (∀ state index acc s2, index < (text.length : Int) →
      A.match_atom state index = some (true, s2) →
      A.accepts s2 = true →
      searchLoop A (text.length : Int) (fuel + 1) state index acc =
        searchLoop A (text.length : Int) fuel s2 index (acc ++ [index])) ∧
    (∀ s2 f2, start < (text.length : Int) →
      A.match_atom A.start_state start = some (true, s2) →
      A.accepts s2 = true →
      A.match_atom s2 start = none →
      search_from A text (f2 + 2) start =
        (some ⟨start, start + 1, pySliceI text start (start + 1)⟩, start + 1)) := by
  refine ⟨?_, ?_, ?_⟩
  · intro state index acc b next_state hloop hge hma hacc
    unfold search_from
    rw [hloop]
    simp only [searchPost]
    rw [if_pos hge, hma]
    simp only [hacc, if_pos]
    rw [List.getLast?_concat]
    simp [Int.sub_add_cancel]
  · intro state index acc s2 hlt hma hacc
    exact searchLoop_step_anchor A _ fuel state index acc s2 hlt hma hacc
  · intro s2 f2 hlt hma hacc hnone
    unfold search_from
    rw [searchLoop_step_anchor A _ (f2 + 1) A.start_state start [] s2 hlt hma hacc,
      searchLoop_break A _ f2 s2 start ([] ++ [start]) hlt hnone]
    simp only [searchPost]
    rw [if_neg (not_le.mpr hlt), List.getLast?_concat]

/-- C9 counterexample: a pattern that accepts through a single always-true
zero-width anchor, run on the text `"a"` from start 0.  The anchor is
tested at position 0, yet `search_from` reports the match `(0, 1)` — the
main scanning loop let the anchor acceptance contribute one character of
width, contradicting the claim that the end equals the tested position in
both paths. -/
theorem search_from_anchor_cex :
    search_from mainAnchorAut oneA 10 0 = (some ⟨0, 1, ['a']⟩, 1) ∧
    ((1 : Int) ≠ 0) :=
  ⟨by decide, by decide⟩

/-- Witness for the amended C9: the trailing-check clause applied to the
`a$`-style automaton on `"a"` (anchor tested at the position 1 = len, match
end 1), and the end-to-end clause applied to the always-true-anchor
automaton on `"a"` (anchor tested at 0, match end 0 + 1). -/
theorem search_from_anchor_amended_witness :
    search_from endAnchorAut oneA 5 0 =
      (some ⟨0, 1, pySliceI oneA 0 1⟩, 1) ∧
    search_from mainAnchorAut oneA (8 + 2) 0 =
      (some ⟨0, 0 + 1, pySliceI oneA 0 (0 + 1)⟩, 0 + 1) :=
  ⟨(search_from_anchor_amended endAnchorAut oneA 5 0).1 1 1 [] true 2
      (by decide) (by decide) (by decide) (by decide),
   (search_from_anchor_amended mainAnchorAut oneA 10 0).2.2 1 8
      (by decide) (by decide) (by decide) (by decide)⟩

/-- Witness for C7 on the one-ε-transition NFA: `0` is in the closure of
`{0}`, its ε-successor `1` is too, and `1` is ε-reachable from `{0}`. -/
theorem epsilon_closure_spec_witness :
    0 ∈ witNFA.epsilon_closure [0] ∧
    1 ∈ witNFA.epsilon_closure [0] ∧
    EpsReach witNFA [0] 1 :=
  ⟨(epsilon_closure_spec witNFA [0]).1 0 (by decide),
   (epsilon_closure_spec witNFA [0]).2.1 0 (by decide) 1 (by decide),
   (epsilon_closure_spec witNFA [0]).2.2 1 (by decide)⟩
